import Mathlib

/-!
Shallow embedding of the core of the NickSto/wordle solver (wordle.py and
simulator.py) and proofs about it.

Representation choices:
* a word is a `List Char` (the Python `str`);
* a `fixed` array is a `List (Option Char)` (Python list of `''` or a letter);
* a `present` array is a `List (Finset Char)` (Python list of strings used
  only through membership, built by set union);
* an `absent` set is a `Finset Char` (Python `set`);
* operations that can raise a non-Wordle exception in Python (IndexError on
  `word[i]`, KeyError on `freqs[letter]`) return `none`;
* operations that raise `WordleError` return `Except WordleError`.
-/

namespace Wordle

/-- A word: the Python string, as its list of characters. -/
abbrev Word := List Char

/-- Embeds the source's `WordleError` exception class (wordle.py lines
334-341).  The source distinguishes conditions only by message text; the
messages' contents are carried here as structured data instead. -/
inductive WordleError where
  | lengthMismatch (got expected : Nat)
  | conflict (position : Nat)
  | noCandidates
deriving DecidableEq

/-- A frequency table: Python dict from letter to list of counts
(index 0 = total, index p = count at 1-based position p), as an
association list. -/
abbrev FreqTable := List (Char × List Int)

/-- A word-statistics table: Python dict from word to a float statistic,
as an association list with rational values. -/
abbrev StatsTable := List (Word × ℚ)

/-- First loop of `is_candidate` (wordle.py lines 184-187): for each index
`i` with a fixed letter, reject the word if `word[i]` differs.  Reading
`word[i]` out of range is an IndexError, embedded as `none`.  The index
read only happens when the slot holds a letter, as in the source. -/
def checkFixed (word : Word) : Nat → List (Option Char) → Option Bool
  | _, [] => some true
  | i, none :: rest => checkFixed word (i+1) rest
  | i, some letter :: rest =>
    (word.get? i).bind fun wc =>
      if wc ≠ letter then some false else checkFixed word (i+1) rest

/-- Second loop of `is_candidate` (wordle.py lines 188-197), with `i` the
0-based index (the source's `place` is `i+1`): reject if some letter of the
slot is missing from the word, then read `word[place-1]` unconditionally
(IndexError embedded as `none`) and reject if it lies in the slot. -/
def checkPresent (word : Word) : Nat → List (Finset Char) → Option Bool
  | _, [] => some true
  | i, letters :: rest =>
    if ∃ l ∈ letters, l ∉ word then some false
    else
      (word.get? i).bind fun wc =>
        if wc ∈ letters then some false else checkPresent word (i+1) rest

/-- Embeds `is_candidate(word, fixed, present, absent)` (wordle.py lines
182-203).  The three loops run in source order, so an early `False` from
one loop preempts a later IndexError. -/
def isCandidate (word : Word) (fixed : List (Option Char))
    (present : List (Finset Char)) (absent : Finset Char) : Option Bool :=
  (checkFixed word 0 fixed).bind fun ok1 =>
    if !ok1 then some false
    else (checkPresent word 0 present).bind fun ok2 =>
      if !ok2 then some false
      else some (!decide (∃ l ∈ absent, l ∈ word))

/-- The filtering loop of `get_candidates` (wordle.py lines 174-177),
keeping input order. -/
def filterCandidates (fixed : List (Option Char)) (present : List (Finset Char))
    (absent : Finset Char) : List Word → Option (List Word)
  | [] => some []
  | w :: rest =>
    (isCandidate w fixed present absent).bind fun b =>
      (filterCandidates fixed present absent rest).bind fun others =>
        if b then some (w :: others) else some others

/-- Loop of `score_letter_freqs` (wordle.py lines 210-215): walk the word
with 1-based `place`, counting repeats and summing `freqs[letter][place]`.
A missing dict key or out-of-range count index is embedded as `none`.
Returns the final (score sum, repeat count). -/
def scoreLoop (freqs : FreqTable) :
    List Char → Nat → Finset Char → Nat → Int → Option (Int × Nat)
  | [], _, _, repeats, score => some (score, repeats)
  | letter :: rest, place, seen, repeats, score =>
    let repeats2 := if letter ∈ seen then repeats + 1 else repeats
    (List.lookup letter freqs).bind fun counts =>
      (counts.get? place).bind fun k =>
        scoreLoop freqs rest (place+1) (insert letter seen) repeats2 (score + k)

/-- Embeds `score_letter_freqs(word, freqs)` (wordle.py lines 206-216):
the summed positional counts divided by `10 ** repeats`. -/
def scoreLetterFreqs (word : Word) (freqs : FreqTable) : Option ℚ :=
  (scoreLoop freqs word 1 ∅ 0 0).map (fun sr => (sr.1 : ℚ) / 10 ^ sr.2)

/-- Sort relation used by `get_candidates` and `get_answer_guesses`: Python
`sorted(key=lambda e: e[1], reverse=True)`, a stable descending sort on the
second component. -/
def sndGE (a b : Word × ℚ) : Prop := b.2 ≤ a.2

instance : DecidableRel sndGE := fun a b => inferInstanceAs (Decidable (b.2 ≤ a.2))

instance : IsTotal (Word × ℚ) sndGE := ⟨fun a b => le_total b.2 a.2⟩

instance : IsTrans (Word × ℚ) sndGE := ⟨fun _ _ _ hab hbc => le_trans hbc hab⟩

/-- Pairs each word with its frequency score, in list order, as Python's
sort-key decoration does; a scoring failure is embedded as `none`. -/
def decorate (freqs : FreqTable) : List Word → Option (List (Word × ℚ))
  | [] => some []
  | w :: rest =>
    (scoreLetterFreqs w freqs).bind fun s =>
      (decorate freqs rest).bind fun ps => some ((w, s) :: ps)

/-- Embeds `get_candidates(words, freqs, fixed, present, absent)` (wordle.py
lines 173-179): filter, then sort stably by frequency score descending. -/
def getCandidates (words : List Word) (freqs : FreqTable)
    (fixed : List (Option Char)) (present : List (Finset Char))
    (absent : Finset Char) : Option (List Word) :=
  (filterCandidates fixed present absent words).bind fun cands =>
    (decorate freqs cands).bind fun pairs =>
      some ((pairs.insertionSort sndGE).map Prod.fst)

/-- Python `word_stats.get(word, 0)`. -/
def statOf (stats : StatsTable) (w : Word) : ℚ := (List.lookup w stats).getD 0

/-- Embeds `score_guesses(candidates, word_stats)` (wordle.py lines
219-233): each raw stat divided by the total, or all zeros when the total
is zero. -/
def scoreGuesses (candidates : List Word) (stats : StatsTable) : List ℚ :=
  let rawStats := candidates.map (statOf stats)
  let total := rawStats.sum
  if total = 0 then List.replicate candidates.length 0
  else rawStats.map (fun r => r / total)

/-- Embeds `get_answer_guesses(candidates, stats)` (wordle.py lines
247-249): candidates zipped with their likelihood scores, sorted stably by
score descending. -/
def getAnswerGuesses (candidates : List Word) (stats : StatsTable) :
    List (Word × ℚ) :=
  ((candidates.zip (scoreGuesses candidates stats)).insertionSort sndGE)

/-- Letters appearing in any fixed slot: Python `set(''.join(fixed))`. -/
def fixedLetters : List (Option Char) → Finset Char
  | [] => ∅
  | none :: rest => fixedLetters rest
  | some c :: rest => insert c (fixedLetters rest)

/-- Letters appearing in any present slot: Python `set(''.join(present))`. -/
def presentLetters : List (Finset Char) → Finset Char
  | [] => ∅
  | s :: rest => s ∪ presentLetters rest

/-- Embeds `get_new_candidates(candidates, words, freqs, fixed, present,
absent)` (wordle.py lines 280-287).  The source's chained comparison
`new_fixed == fixed == new_present == present` holds exactly when both
`fixed` and `present` are entirely empty of length `len(fixed)`. -/
def getNewCandidates (candidates words : List Word) (freqs : FreqTable)
    (fixed : List (Option Char)) (present : List (Finset Char))
    (absent : Finset Char) : Option (List Word) :=
  let newAbsent := absent ∪ fixedLetters fixed ∪ presentLetters present
  let newFixed : List (Option Char) := List.replicate fixed.length none
  let newPresent : List (Finset Char) := List.replicate fixed.length ∅
  if fixed = newFixed ∧ present = newPresent then some candidates
  else getCandidates words freqs newFixed newPresent newAbsent

/-- Result dict of `choose_words`: the keys `choice`, `answers`,
`excluders`. -/
structure Guesses where
  choice : Option Word
  answers : List (Word × ℚ)
  excluders : List Word
deriving DecidableEq

/-- Python slice `l[:limit]` where `limit` may be `None`. -/
def takeOpt (limit : Option Nat) (l : List α) : List α :=
  match limit with
  | none => l
  | some n => l.take n

/-- Embeds `choose_words(words, freqs, stats, fixed, present, absent,
guess_thres, limit)` (wordle.py lines 252-272).  The `WordleError` raised
when no candidates fit is the `Except.error` case; a crash from an
unchecked lookup is `none`. -/
def chooseWords (words : List Word) (freqs : FreqTable) (stats : StatsTable)
    (fixed : List (Option Char)) (present : List (Finset Char))
    (absent : Finset Char) (guessThres : ℚ) (limit : Option Nat) :
    Option (Except WordleError Guesses) :=
  (getCandidates words freqs fixed present absent).bind fun candidates =>
    let answerGuesses := getAnswerGuesses candidates stats
    let choice0 : Option Word :=
      answerGuesses.head?.bind fun ag =>
        if ag.2 ≥ guessThres then some ag.1 else none
    if candidates.isEmpty then
      some (Except.error WordleError.noCandidates)
    else
      (getNewCandidates candidates words freqs fixed present absent).bind
        fun newCandidates =>
          some (Except.ok
            { choice := Option.or choice0
                (Option.or newCandidates.head? candidates.head?)
              answers := takeOpt limit answerGuesses
              excluders := takeOpt limit newCandidates })

/-- Embeds `choose_word` (wordle.py lines 275-277): the `choice` entry of
`choose_words`. -/
def chooseWord (words : List Word) (freqs : FreqTable) (stats : StatsTable)
    (fixed : List (Option Char)) (present : List (Finset Char))
    (absent : Finset Char) (guessThres : ℚ) :
    Option (Except WordleError (Option Word)) :=
  (chooseWords words freqs stats fixed present absent guessThres none).map
    (Except.map Guesses.choice)

/-- Loop of `add_fixed` (wordle.py lines 153-157), walking the addition
with index `i` and accumulating `new_fixed`; a conflicting non-empty letter
raises. -/
def addFixedLoop (fixed : List (Option Char)) :
    Nat → List (Option Char) → List (Option Char) →
    Except WordleError (List (Option Char))
  | _, newFixed, [] => .ok newFixed
  | i, newFixed, none :: rest => addFixedLoop fixed (i+1) newFixed rest
  | i, newFixed, some letter :: rest =>
    if Option.any (fun old => letter != old) (fixed.get? i).join then
      .error (.conflict i)
    else addFixedLoop fixed (i+1) (newFixed.set i (some letter)) rest

/-- Embeds `add_fixed(fixed, fixed_addition)` (wordle.py lines 147-158). -/
def addFixed (fixed fixedAddition : List (Option Char)) :
    Except WordleError (List (Option Char)) :=
  if fixed.length ≠ fixedAddition.length then
    .error (.lengthMismatch fixed.length fixedAddition.length)
  else addFixedLoop fixed 0 fixed fixedAddition

/-- Embeds `add_present(present, present_addition)` (wordle.py lines
161-170): pointwise `set(new) | set(old)` after a length check. -/
def addPresent (present presentAddition : List (Finset Char)) :
    Except WordleError (List (Finset Char)) :=
  if present.length ≠ presentAddition.length then
    .error (.lengthMismatch present.length presentAddition.length)
  else .ok (List.zipWith (fun old new => new ∪ old) present presentAddition)

/-- Embeds the simulator's accumulation `absent = absent | new_absent`
(simulator.py line 131). -/
def mergeAbsent (absent absentAddition : Finset Char) : Finset Char :=
  absent ∪ absentAddition

/-- Loop of `simulate_round` (simulator.py lines 143-155), walking the
guess with index `i`: a green sets `fixed[i]`, else a letter occurring
anywhere in the answer is added to `present[i]`, else to `absent`.
Reading `answer[i]` out of range is embedded as `none`. -/
def simulateRoundLoop (answer : Word) :
    Nat → List Char → List (Option Char) → List (Finset Char) → Finset Char →
    Option (List (Option Char) × List (Finset Char) × Finset Char)
  | _, [], fixed, present, absent => some (fixed, present, absent)
  | i, letter :: rest, fixed, present, absent =>
    (answer.get? i).bind fun a =>
      if a = letter then
        simulateRoundLoop answer (i+1) rest (fixed.set i (some letter)) present absent
      else if letter ∈ answer then
        simulateRoundLoop answer (i+1) rest fixed
          (present.set i (insert letter (present.getD i ∅))) absent
      else
        simulateRoundLoop answer (i+1) rest fixed present (insert letter absent)

/-- Embeds `simulate_round(answer, guess)` (simulator.py lines 139-156). -/
def simulateRound (answer guess : Word) :
    Option (List (Option Char) × List (Finset Char) × Finset Char) :=
  simulateRoundLoop answer 0 guess (List.replicate answer.length none)
    (List.replicate answer.length ∅) ∅

/-! Spec-side definitions, written from the claims' wording, for comparison
with the embedded source functions. -/

/-- Filter rule 1 of spec §4.1: every set fixed slot matches the word. -/
def ruleFixedOK (w : Word) (fixed : List (Option Char)) : Prop :=
  ∀ i : Fin fixed.length, ∀ c : Char, fixed.get i = some c → w.get? i.val = some c

/-- Filter rule 2 of spec §4.1: no present letter sits at its excluded
position. -/
def rulePresentPos (w : Word) (present : List (Finset Char)) : Prop :=
  ∀ i : Fin present.length, ∀ c : Char, w.get? i.val = some c → c ∉ present.get i

/-- Filter rule 3 of spec §4.1: every present letter occurs somewhere in
the word. -/
def rulePresentMem (w : Word) (present : List (Finset Char)) : Prop :=
  ∀ i : Fin present.length, ∀ c ∈ present.get i, c ∈ w

/-- Filter rule 4 of spec §4.1: no absent letter occurs in the word. -/
def ruleAbsent (w : Word) (absent : Finset Char) : Prop :=
  ∀ c ∈ absent, c ∉ w

/-- Number of repeat occurrences in the remaining letters, given the set of
letters already seen (spec §4.2: a letter already seen earlier in the same
word, counted once per repeat occurrence). -/
def repeatsFrom (seen : Finset Char) : Word → Nat
  | [] => 0
  | c :: rest => (if c ∈ seen then 1 else 0) + repeatsFrom (insert c seen) rest

/-- Number of repeat occurrences in a word (spec §4.2). -/
def countRepeats (w : Word) : Nat := repeatsFrom ∅ w

/-- Positional frequency sum of the remaining letters starting at a given
1-based place (spec §4.2: sum over positions p of `freq_table[word[p]][p]`). -/
def freqSumFrom (freqs : FreqTable) : Nat → Word → Int
  | _, [] => 0
  | place, c :: rest =>
    ((List.lookup c freqs).getD []).getD place 0 + freqSumFrom freqs (place+1) rest

/-- Positional frequency sum of a word (spec §4.2). -/
def freqSum (w : Word) (freqs : FreqTable) : Int := freqSumFrom freqs 1 w

/-- Coverage precondition of the frequency table for one word: every letter
has an entry whose count list has length at least word length + 1. -/
abbrev freqCovers (freqs : FreqTable) (w : Word) : Prop :=
  ∀ c ∈ w, (List.lookup c freqs).isSome ∧
    w.length + 1 ≤ ((List.lookup c freqs).getD []).length

/-- Exploration constraint set of spec §4.4: the absent set extended by
every letter currently known fixed or present. -/
def explorationAbsent (fixed : List (Option Char)) (present : List (Finset Char))
    (absent : Finset Char) : Finset Char :=
  absent ∪ fixedLetters fixed ∪ presentLetters present

/-- No-conflict condition of `add_fixed` for a suffix of the addition array
starting at index `i`. -/
def NoConflictFrom (fixed : List (Option Char)) (i : Nat)
    (rest : List (Option Char)) : Prop :=
  ∀ k (hk : k < rest.length) c c', rest.get ⟨k, hk⟩ = some c →
    fixed.get? (i+k) = some (some c') → c = c'

/-- Well-formedness of a session: the constraint arrays agree in length,
every word has the session length, and the frequency table covers every
word. -/
abbrev SessionWF (ws : List Word) (freqs : FreqTable) (fixed : List (Option Char))
    (present : List (Finset Char)) : Prop :=
  present.length = fixed.length ∧
  (∀ u ∈ ws, u.length = fixed.length) ∧
  (∀ u ∈ ws, freqCovers freqs u)

/-- Concrete word list used to instantiate the theorems: three two-letter
words. -/
def exWords : List Word := [['c','a'], ['a','b'], ['b','d']]

/-- Concrete frequency table for the two-letter session (index 0 holds the
total count, indices 1 and 2 the per-position counts). -/
def exFreqs : FreqTable :=
  [('a', [30, 10, 20]), ('b', [20, 5, 15]), ('c', [10, 8, 2]), ('d', [5, 1, 4])]

/-- Concrete word-statistics table. -/
def exStats : StatsTable := [(['c','a'], 2), (['a','b'], 1)]

/-- Concrete fixed array: nothing known. -/
def exFixed : List (Option Char) := [none, none]

/-- Concrete present array: a yellow letter b seen at position 1. -/
def exPresent : List (Finset Char) := [{'b'}, ∅]

/-- Concrete present array with nothing known. -/
def exPresent0 : List (Finset Char) := [∅, ∅]

/-! Lemmas about the frequency scorer. -/

lemma scoreLoop_eq (freqs : FreqTable) :
    ∀ (rest : List Char) (place : Nat) (seen : Finset Char) (repeats : Nat)
      (score : Int),
      (∀ k (hk : k < rest.length),
        ∃ counts, List.lookup (rest.get ⟨k, hk⟩) freqs = some counts ∧
          place + k < counts.length) →
      scoreLoop freqs rest place seen repeats score =
        some (score + freqSumFrom freqs place rest,
              repeats + repeatsFrom seen rest)
  | [], place, seen, repeats, score, _ => by
    simp [scoreLoop, freqSumFrom, repeatsFrom]
  | c :: rest, place, seen, repeats, score, h => by
    obtain ⟨counts, hlook, hlt⟩ := h 0 (by simp)
    have hget : counts.get? place = some (counts.get ⟨place, by simpa using hlt⟩) :=
      List.get?_eq_get (by simpa using hlt)
    have ih := scoreLoop_eq freqs rest (place+1) (insert c seen)
      (if c ∈ seen then repeats + 1 else repeats)
      (score + counts.get ⟨place, by simpa using hlt⟩)
      (fun k hk => by
        obtain ⟨cs, h1, h2⟩ := h (k+1) (by simpa using hk)
        exact ⟨cs, by simpa using h1, by omega⟩)
    simp only [scoreLoop, List.get.eq_1] at hlook hget ih ⊢
    rw [hlook, Option.some_bind, hget, Option.some_bind, ih]
    have hlt2 : place < counts.length := by omega
    have hgd : ((List.lookup c freqs).getD []).getD place 0 =
        counts.get ⟨place, hlt2⟩ := by
      rw [hlook]
      simp [List.getD_eq_getElem?_getD, List.getElem?_eq_getElem hlt2,
        List.get_eq_getElem]
    simp only [freqSumFrom, repeatsFrom, hgd, Option.some.injEq, Prod.mk.injEq]
    exact ⟨by ring, by by_cases hc : c ∈ seen <;> simp [hc] <;> omega⟩

lemma scoreLetterFreqs_eq (w : Word) (freqs : FreqTable) (h : freqCovers freqs w) :
    scoreLetterFreqs w freqs =
      some ((freqSum w freqs : ℚ) / 10 ^ countRepeats w) := by
  have key := scoreLoop_eq freqs w 1 ∅ 0 0 (fun k hk => by
    have hmem : w.get ⟨k, hk⟩ ∈ w := List.get_mem w k hk
    obtain ⟨h1, h2⟩ := h _ hmem
    obtain ⟨counts, hc⟩ := Option.isSome_iff_exists.mp h1
    exact ⟨counts, hc, by rw [hc] at h2; simp at h2; omega⟩)
  simp [scoreLetterFreqs, key, freqSum, countRepeats]

/-! Lemmas about the likelihood scorer. -/

lemma lookup_mem_of_eq_some {α β : Type} [BEq α] [LawfulBEq α]
    {l : List (α × β)} {a : α} {b : β} (h : List.lookup a l = some b) :
    (a, b) ∈ l := by
  induction l with
  | nil => simp [List.lookup] at h
  | cons p rest ih =>
    rw [List.lookup] at h
    by_cases hab : a == p.1
    · simp only [hab, if_pos] at h
      have hb : p.2 = b := by simpa using h
      have ha : a = p.1 := by simpa using hab
      have hp : p = (a, b) := by
        cases p
        simp_all
      rw [hp]
      exact List.mem_cons_self _ _
    · simp only [hab] at h
      exact List.mem_cons_of_mem _ (ih h)

lemma statOf_nonneg (stats : StatsTable) (hnn : ∀ p ∈ stats, 0 ≤ p.2)
    (w : Word) : 0 ≤ statOf stats w := by
  unfold statOf
  cases h : List.lookup w stats with
  | none => simp
  | some v => simpa using hnn _ (lookup_mem_of_eq_some h)

lemma sum_map_div (l : List ℚ) (d : ℚ) :
    (l.map (fun r => r / d)).sum = l.sum / d := by
  induction l with
  | nil => simp
  | cons x rest ih => simp [ih, add_div]

lemma scoreGuesses_length (candidates : List Word) (stats : StatsTable) :
    (scoreGuesses candidates stats).length = candidates.length := by
  unfold scoreGuesses
  by_cases h : (candidates.map (statOf stats)).sum = 0 <;> simp [h]

/-! Lemmas about `add_fixed` and `add_present`. -/

lemma noConflictFrom_cons (fixed : List (Option Char)) (i : Nat)
    (c0 : Option Char) (rest : List (Option Char))
    (h0 : ∀ c c', c0 = some c → fixed.get? i = some (some c') → c = c') :
    (NoConflictFrom fixed (i+1) rest ↔ NoConflictFrom fixed i (c0 :: rest)) := by
  constructor
  · intro hall k hk c c' hget hfix
    match k, hk with
    | 0, hk =>
      exact h0 c c' (by simpa using hget) (by simpa using hfix)
    | k+1, hk =>
      refine hall k (by simpa using hk) c c' (by simpa using hget) ?_
      rw [← hfix]
      congr 1
      omega
  · intro hall k hk c c' hget hfix
    refine hall (k+1) (by simpa using hk) c c' (by simpa using hget) ?_
    rw [← hfix]
    congr 1
    omega

lemma addFixedLoop_ok_iff (fixed : List (Option Char)) :
    ∀ (rest : List (Option Char)) (i : Nat) (acc : List (Option Char)),
      ((∃ res, addFixedLoop fixed i acc rest = .ok res) ↔
        NoConflictFrom fixed i rest)
  | [], i, acc => by
    simp only [addFixedLoop]
    constructor
    · intro _ k hk
      simp at hk
    · intro _
      exact ⟨acc, rfl⟩
  | none :: rest, i, acc => by
    rw [addFixedLoop]
    rw [addFixedLoop_ok_iff fixed rest (i+1) acc]
    exact noConflictFrom_cons fixed i none rest (fun c c' hc => by simp at hc)
  | some letter :: rest, i, acc => by
    rw [addFixedLoop]
    cases hfi : fixed.get? i with
    | none =>
      change (∃ res, addFixedLoop fixed (i+1) (acc.set i (some letter)) rest =
        Except.ok res) ↔ _
      rw [addFixedLoop_ok_iff fixed rest (i+1) _]
      exact noConflictFrom_cons fixed i (some letter) rest
        (fun c c' _ hfix => by rw [hfi] at hfix; simp at hfix)
    | some a0 =>
      cases a0 with
      | none =>
        change (∃ res, addFixedLoop fixed (i+1) (acc.set i (some letter)) rest =
          Except.ok res) ↔ _
        rw [addFixedLoop_ok_iff fixed rest (i+1) _]
        exact noConflictFrom_cons fixed i (some letter) rest
          (fun c c' _ hfix => by rw [hfi] at hfix; simp at hfix)
      | some old =>
        by_cases hlo : letter = old
        · subst hlo
          rw [if_neg (by simp)]
          rw [addFixedLoop_ok_iff fixed rest (i+1) _]
          exact noConflictFrom_cons fixed i (some letter) rest
            (fun c c' hc hfix => by
              rw [hfi] at hfix
              simp only [Option.some.injEq] at hc hfix
              rw [← hc, ← hfix])
        · rw [if_pos (by simpa using hlo)]
          constructor
          · intro ⟨res, hres⟩
            simp at hres
          · intro hall
            exact absurd (hall 0 (by simp) letter old (by simp) (by simpa using hfi)) hlo

lemma take_set_self {α : Type} (l : List α) (a : α) (i : Nat) :
    (l.set i a).take i = l.take i := by
  apply List.ext_getElem?
  intro j
  rw [List.getElem?_take, List.getElem?_take]
  split
  · next hj => rw [List.getElem?_set_ne (by omega)]
  · rfl

lemma addFixedLoop_ok_eq (fixed : List (Option Char)) :
    ∀ (rest : List (Option Char)) (i : Nat) (acc : List (Option Char)),
      acc.length = fixed.length →
      i + rest.length = fixed.length →
      List.drop i acc = List.drop i fixed →
      NoConflictFrom fixed i rest →
      addFixedLoop fixed i acc rest =
        .ok (acc.take i ++
          List.zipWith (fun old new => Option.or new old) (List.drop i fixed) rest)
  | [], i, acc, hlen, hi, _, _ => by
    simp only [List.length_nil, Nat.add_zero] at hi
    rw [addFixedLoop]
    have h1 : List.drop i fixed = [] := by
      apply List.drop_eq_nil_of_le
      omega
    rw [h1]
    simp [List.take_of_length_le (by omega : acc.length ≤ i)]
  | none :: rest, i, acc, hlen, hi, hdrop, hnc => by
    rw [addFixedLoop]
    have hilt : i < fixed.length := by
      simp at hi
      omega
    have ih := addFixedLoop_ok_eq fixed rest (i+1) acc hlen
      (by simp at hi ⊢; omega)
      (by
        have := congrArg (List.drop 1) hdrop
        rwa [List.drop_drop, List.drop_drop] at this)
      ((noConflictFrom_cons fixed i none rest (fun c c' hc => by simp at hc)).mpr hnc)
    rw [ih]
    rw [List.drop_eq_getElem_cons hilt]
    have hacc : acc[i]? = some (fixed.get ⟨i, hilt⟩) := by
      have h0 : (List.drop i acc)[0]? = (List.drop i fixed)[0]? := by rw [hdrop]
      rw [List.getElem?_drop, List.getElem?_drop] at h0
      simp only [Nat.add_zero] at h0
      rw [h0, List.getElem?_eq_getElem hilt]
      simp [List.get_eq_getElem]
    rw [List.take_succ, hacc]
    simp only [List.zipWith_cons_cons, Option.none_or, Option.toList_some,
      List.append_assoc, List.singleton_append, List.get_eq_getElem]
  | some letter :: rest, i, acc, hlen, hi, hdrop, hnc => by
    rw [addFixedLoop]
    have hilt : i < fixed.length := by
      simp at hi
      omega
    have hgi : fixed.get? i = some (fixed.get ⟨i, hilt⟩) := List.get?_eq_get hilt
    have hshift : NoConflictFrom fixed (i+1) rest := by
      refine (noConflictFrom_cons fixed i (some letter) rest ?_).mpr hnc
      intro c c' hc hfix
      exact hnc 0 (by simp) c c' (by simpa using hc) (by simpa using hfix)
    have hih := fun acc2 hl2 hd2 => addFixedLoop_ok_eq fixed rest (i+1) acc2 hl2
      (by simp at hi ⊢; omega) hd2 hshift
    have hacc' : (acc.set i (some letter)).take (i+1) =
        acc.take i ++ [some letter] := by
      rw [List.take_succ, take_set_self,
        List.getElem?_set_eq_of_lt _ (by omega : i < acc.length)]
      simp
    have hdrop2 : List.drop (i+1) (acc.set i (some letter)) = List.drop (i+1) fixed := by
      rw [List.drop_set_of_lt _ _ (by omega : i < i+1)]
      have := congrArg (List.drop 1) hdrop
      rwa [List.drop_drop, List.drop_drop] at this
    rw [hgi]
    cases hfi0 : fixed.get ⟨i, hilt⟩ with
    | none =>
      rw [if_neg (by simp)]
      rw [hih (acc.set i (some letter)) (by simp [hlen]) hdrop2]
      rw [List.drop_eq_getElem_cons hilt]
      have : fixed[i] = (none : Option Char) := by
        rw [← hfi0]
        simp [List.get_eq_getElem]
      rw [this, hacc']
      simp [Option.or]
    | some old =>
      have hlo : letter = old := by
        refine hnc 0 (by simp) letter old (by simp) ?_
        rw [Nat.add_zero, hgi, hfi0]
      subst hlo
      rw [if_neg (by simp [hfi0])]
      rw [hih (acc.set i (some letter)) (by simp [hlen]) hdrop2]
      rw [List.drop_eq_getElem_cons hilt]
      have : fixed[i] = some letter := by
        rw [← hfi0]
        simp [List.get_eq_getElem]
      rw [this, hacc']
      simp [Option.or]

/-! Lemmas about the simulator's feedback generator. -/

lemma simulateRoundLoop_spec (answer : Word) :
    ∀ (rest : List Char) (i : Nat) (fx : List (Option Char))
      (pr : List (Finset Char)) (ab : Finset Char),
      i + rest.length ≤ answer.length →
      fx.length = answer.length →
      pr.length = answer.length →
      ∃ f p a, simulateRoundLoop answer i rest fx pr ab = some (f, p, a) ∧
        f.length = answer.length ∧ p.length = answer.length ∧
        (∀ j, j < i → f.get? j = fx.get? j ∧ p.get? j = pr.get? j) ∧
        (∀ k (hk : k < rest.length),
          (f.get? (i+k) =
            if answer.get? (i+k) = some (rest.get ⟨k, hk⟩)
            then some (some (rest.get ⟨k, hk⟩)) else fx.get? (i+k)) ∧
          (p.get? (i+k) =
            if answer.get? (i+k) ≠ some (rest.get ⟨k, hk⟩) ∧ rest.get ⟨k, hk⟩ ∈ answer
            then some (insert (rest.get ⟨k, hk⟩) (pr.getD (i+k) ∅))
            else pr.get? (i+k))) ∧
        a = ab ∪ (rest.filter (fun c => !answer.contains c)).toFinset
  | [], i, fx, pr, ab, _, hf, hp => by
    refine ⟨fx, pr, ab, rfl, hf, hp, fun j _ => ⟨rfl, rfl⟩, fun k hk => by simp at hk, ?_⟩
    simp
  | letter :: rest, i, fx, pr, ab, hi, hf, hp => by
    have hilt : i < answer.length := by
      simp at hi
      omega
    have hga : answer.get? i = some (answer.get ⟨i, hilt⟩) := List.get?_eq_get hilt
    rw [simulateRoundLoop, hga, Option.some_bind]
    by_cases hgreen : answer.get ⟨i, hilt⟩ = letter
    · rw [if_pos hgreen]
      obtain ⟨f, p, a, hrun, hfl, hpl, hlow, hrest, habs⟩ :=
        simulateRoundLoop_spec answer rest (i+1) (fx.set i (some letter)) pr ab
          (by simp at hi ⊢; omega) (by simp [hf]) hp
      refine ⟨f, p, a, hrun, hfl, hpl, ?_, ?_, ?_⟩
      · intro j hj
        obtain ⟨h1, h2⟩ := hlow j (by omega)
        exact ⟨by rw [h1, List.get?_set_ne _ _ (by omega : i ≠ j)], h2⟩
      · intro k hk
        match k, hk with
        | 0, hk =>
          obtain ⟨h1, h2⟩ := hlow i (by omega)
          have hcz : (letter :: rest).get ⟨0, hk⟩ = letter := rfl
          rw [hcz]
          constructor
          · rw [Nat.add_zero, h1, List.get?_eq_getElem?,
              List.getElem?_set_eq_of_lt _ (by omega : i < fx.length),
              if_pos (by rw [hga, hgreen])]
          · rw [Nat.add_zero, h2,
              if_neg (by rw [hga, hgreen]; simp)]
        | k+1, hk =>
          obtain ⟨h1, h2⟩ := hrest k (by simpa using hk)
          have harith : i + 1 + k = i + (k+1) := by omega
          rw [harith] at h1 h2
          have hcs : (letter :: rest).get ⟨k+1, hk⟩ =
            rest.get ⟨k, by simpa using hk⟩ := rfl
          rw [hcs]
          constructor
          · rw [h1, List.get?_set_ne _ _ (by omega : i ≠ i + (k+1))]
          · exact h2
      · rw [habs]
        congr 1
        have hcf : (!answer.contains letter) = false := by
          simp only [Bool.not_eq_false', List.elem_eq_mem, decide_eq_true_eq]
          rw [← hgreen]
          exact List.get_mem answer i hilt
        rw [List.filter_cons, hcf]
        simp
    · rw [if_neg hgreen]
      have hne : answer.get? i ≠ some letter := by
        rw [hga]
        intro hc
        injection hc with hc2
        exact hgreen hc2
      by_cases hyellow : letter ∈ answer
      · rw [if_pos hyellow]
        obtain ⟨f, p, a, hrun, hfl, hpl, hlow, hrest, habs⟩ :=
          simulateRoundLoop_spec answer rest (i+1) fx
            (pr.set i (insert letter (pr.getD i ∅))) ab
            (by simp at hi ⊢; omega) hf (by simp [hp])
        refine ⟨f, p, a, hrun, hfl, hpl, ?_, ?_, ?_⟩
        · intro j hj
          obtain ⟨h1, h2⟩ := hlow j (by omega)
          exact ⟨h1, by rw [h2, List.get?_set_ne _ _ (by omega : i ≠ j)]⟩
        · intro k hk
          match k, hk with
          | 0, hk =>
            obtain ⟨h1, h2⟩ := hlow i (by omega)
            have hcz : (letter :: rest).get ⟨0, hk⟩ = letter := rfl
            rw [hcz]
            constructor
            · rw [Nat.add_zero, h1, if_neg hne]
            · rw [Nat.add_zero, h2, List.get?_eq_getElem?,
                List.getElem?_set_eq_of_lt _ (by omega : i < pr.length),
                if_pos ⟨hne, hyellow⟩]
          | k+1, hk =>
            obtain ⟨h1, h2⟩ := hrest k (by simpa using hk)
            have harith : i + 1 + k = i + (k+1) := by omega
            rw [harith] at h1 h2
            have hcs : (letter :: rest).get ⟨k+1, hk⟩ =
              rest.get ⟨k, by simpa using hk⟩ := rfl
            rw [hcs]
            constructor
            · exact h1
            · rw [h2, List.get?_set_ne _ _ (by omega : i ≠ i + (k+1))]
              simp only [List.getD_eq_getElem?_getD,
                List.getElem?_set_ne (by omega : i ≠ i + (k+1))]
        · rw [habs]
          congr 1
          have hcf : (!answer.contains letter) = false := by
            simpa using hyellow
          rw [List.filter_cons, hcf]
          simp
      · rw [if_neg hyellow]
        obtain ⟨f, p, a, hrun, hfl, hpl, hlow, hrest, habs⟩ :=
          simulateRoundLoop_spec answer rest (i+1) fx pr (insert letter ab)
            (by simp at hi ⊢; omega) hf hp
        refine ⟨f, p, a, hrun, hfl, hpl, ?_, ?_, ?_⟩
        · intro j hj
          exact hlow j (by omega)
        · intro k hk
          match k, hk with
          | 0, hk =>
            obtain ⟨h1, h2⟩ := hlow i (by omega)
            have hcz : (letter :: rest).get ⟨0, hk⟩ = letter := rfl
            rw [hcz]
            constructor
            · rw [Nat.add_zero, h1, if_neg hne]
            · rw [Nat.add_zero, h2,
                if_neg (fun hc => hyellow hc.2)]
          | k+1, hk =>
            obtain ⟨h1, h2⟩ := hrest k (by simpa using hk)
            have harith : i + 1 + k = i + (k+1) := by omega
            rw [harith] at h1 h2
            have hcs : (letter :: rest).get ⟨k+1, hk⟩ =
              rest.get ⟨k, by simpa using hk⟩ := rfl
            rw [hcs]
            exact ⟨h1, h2⟩
        · rw [habs]
          have hct : (!answer.contains letter) = true := by
            simpa using hyellow
          rw [List.filter_cons, hct, if_pos rfl]
          simp only [List.toFinset_cons]
          rw [Finset.insert_union, Finset.union_insert]

/-! Lemmas about the candidate filter. -/

lemma checkFixed_isSome (w : Word) :
    ∀ (fx : List (Option Char)) (i : Nat), i + fx.length ≤ w.length →
      (checkFixed w i fx).isSome
  | [], i, _ => by simp [checkFixed]
  | none :: rest, i, h => by
    rw [checkFixed]
    exact checkFixed_isSome w rest (i+1) (by simp at h ⊢; omega)
  | some letter :: rest, i, h => by
    have hilt : i < w.length := by
      simp at h
      omega
    rw [checkFixed, List.get?_eq_get hilt, Option.some_bind]
    by_cases hc : w.get ⟨i, hilt⟩ ≠ letter
    · rw [if_pos hc]
      rfl
    · rw [if_neg hc]
      exact checkFixed_isSome w rest (i+1) (by simp at h ⊢; omega)

lemma checkFixed_true_iff (w : Word) :
    ∀ (fx : List (Option Char)) (i : Nat), i + fx.length ≤ w.length →
      (checkFixed w i fx = some true ↔
        ∀ k (hk : k < fx.length) c, fx.get ⟨k, hk⟩ = some c →
          w.get? (i+k) = some c)
  | [], i, _ => by
    simp only [checkFixed]
    constructor
    · intro _ k hk
      simp at hk
    · intro _
      trivial
  | none :: rest, i, h => by
    rw [checkFixed, checkFixed_true_iff w rest (i+1) (by simp at h ⊢; omega)]
    constructor
    · intro hall k hk c hget
      match k, hk with
      | 0, hk => simp at hget
      | k+1, hk =>
        have := hall k (by simpa using hk) c (by simpa using hget)
        rwa [show i + 1 + k = i + (k+1) by omega] at this
    · intro hall k hk c hget
      have := hall (k+1) (by simpa using hk) c (by simpa using hget)
      rwa [show i + (k+1) = i + 1 + k by omega] at this
  | some letter :: rest, i, h => by
    have hilt : i < w.length := by
      simp at h
      omega
    rw [checkFixed, List.get?_eq_get hilt, Option.some_bind]
    by_cases hc : w.get ⟨i, hilt⟩ = letter
    · rw [if_neg (fun hne => hne hc),
        checkFixed_true_iff w rest (i+1) (by simp at h ⊢; omega)]
      constructor
      · intro hall k hk c hget
        match k, hk with
        | 0, hk =>
          have hcz : (some letter :: rest).get ⟨0, hk⟩ = some letter := rfl
          rw [hcz] at hget
          injection hget with hget2
          rw [Nat.add_zero, List.get?_eq_get hilt, hc, hget2]
        | k+1, hk =>
          have := hall k (by simpa using hk) c (by simpa using hget)
          rwa [show i + 1 + k = i + (k+1) by omega] at this
      · intro hall k hk c hget
        have := hall (k+1) (by simpa using hk) c (by simpa using hget)
        rwa [show i + (k+1) = i + 1 + k by omega] at this
    · rw [if_pos (by simpa using hc)]
      constructor
      · intro hfalse
        exact absurd hfalse (by simp)
      · intro hall
        have := hall 0 (by simp) letter rfl
        rw [Nat.add_zero, List.get?_eq_get hilt] at this
        injection this with this2
        exact absurd this2 hc

lemma checkPresent_isSome (w : Word) :
    ∀ (ps : List (Finset Char)) (i : Nat), i + ps.length ≤ w.length →
      (checkPresent w i ps).isSome
  | [], i, _ => by simp [checkPresent]
  | letters :: rest, i, h => by
    have hilt : i < w.length := by
      simp at h
      omega
    rw [checkPresent]
    by_cases hmiss : ∃ l ∈ letters, l ∉ w
    · rw [if_pos hmiss]
      rfl
    · rw [if_neg hmiss, List.get?_eq_get hilt, Option.some_bind]
      by_cases hin : w.get ⟨i, hilt⟩ ∈ letters
      · rw [if_pos hin]
        rfl
      · rw [if_neg hin]
        exact checkPresent_isSome w rest (i+1) (by simp at h ⊢; omega)

lemma checkPresent_true_iff (w : Word) :
    ∀ (ps : List (Finset Char)) (i : Nat), i + ps.length ≤ w.length →
      (checkPresent w i ps = some true ↔
        ∀ k (hk : k < ps.length),
          (∀ c ∈ ps.get ⟨k, hk⟩, c ∈ w) ∧
          ∀ c, w.get? (i+k) = some c → c ∉ ps.get ⟨k, hk⟩)
  | [], i, _ => by
    simp only [checkPresent]
    constructor
    · intro _ k hk
      simp at hk
    · intro _
      trivial
  | letters :: rest, i, h => by
    have hilt : i < w.length := by
      simp at h
      omega
    rw [checkPresent]
    by_cases hmiss : ∃ l ∈ letters, l ∉ w
    · rw [if_pos hmiss]
      constructor
      · intro hfalse
        exact absurd hfalse (by simp)
      · intro hall
        obtain ⟨l, hl, hlw⟩ := hmiss
        exact absurd ((hall 0 (by simp)).1 l hl) hlw
    · rw [if_neg hmiss, List.get?_eq_get hilt, Option.some_bind]
      push_neg at hmiss
      by_cases hin : w.get ⟨i, hilt⟩ ∈ letters
      · rw [if_pos hin]
        constructor
        · intro hfalse
          exact absurd hfalse (by simp)
        · intro hall
          have := (hall 0 (by simp)).2 (w.get ⟨i, hilt⟩)
            (by rw [Nat.add_zero, List.get?_eq_get hilt])
          exact absurd hin this
      · rw [if_neg hin,
          checkPresent_true_iff w rest (i+1) (by simp at h ⊢; omega)]
        constructor
        · intro hall k hk
          match k, hk with
          | 0, hk =>
            refine ⟨fun c hc => hmiss c hc, fun c hc => ?_⟩
            rw [Nat.add_zero, List.get?_eq_get hilt] at hc
            injection hc with hc2
            rw [← hc2]
            exact hin
          | k+1, hk =>
            have := hall k (by simpa using hk)
            rwa [show i + 1 + k = i + (k+1) by omega] at this
        · intro hall k hk
          have := hall (k+1) (by simpa using hk)
          rwa [show i + (k+1) = i + 1 + k by omega] at this

lemma isCandidate_isSome (w : Word) (fixed : List (Option Char))
    (present : List (Finset Char)) (absent : Finset Char)
    (h1 : fixed.length ≤ w.length) (h2 : present.length ≤ w.length) :
    (isCandidate w fixed present absent).isSome := by
  rw [isCandidate]
  obtain ⟨b1, hb1⟩ := Option.isSome_iff_exists.mp
    (checkFixed_isSome w fixed 0 (by omega))
  rw [hb1, Option.some_bind]
  cases b1 with
  | false => rfl
  | true =>
    rw [if_neg (by simp)]
    obtain ⟨b2, hb2⟩ := Option.isSome_iff_exists.mp
      (checkPresent_isSome w present 0 (by omega))
    rw [hb2, Option.some_bind]
    cases b2 with
    | false => rfl
    | true =>
      rw [if_neg (by simp)]
      rfl

lemma isCandidate_true_iff (w : Word) (fixed : List (Option Char))
    (present : List (Finset Char)) (absent : Finset Char)
    (h1 : fixed.length ≤ w.length) (h2 : present.length ≤ w.length) :
    (isCandidate w fixed present absent = some true ↔
      ruleFixedOK w fixed ∧ rulePresentPos w present ∧
      rulePresentMem w present ∧ ruleAbsent w absent) := by
  rw [isCandidate]
  have hcf := checkFixed_true_iff w fixed 0 (by omega)
  have hcp := checkPresent_true_iff w present 0 (by omega)
  obtain ⟨b1, hb1⟩ := Option.isSome_iff_exists.mp
    (checkFixed_isSome w fixed 0 (by omega))
  rw [hb1, Option.some_bind]
  rw [hb1] at hcf
  cases b1 with
  | false =>
    rw [if_pos (by simp)]
    constructor
    · intro hfalse
      exact absurd hfalse (by simp)
    · intro ⟨hr1, _, _, _⟩
      have : (some false : Option Bool) = some true := by
        rw [hcf]
        intro k hk c hget
        have := hr1 ⟨k, hk⟩ c hget
        simpa using this
      exact absurd this (by simp)
  | true =>
    rw [if_neg (by simp)]
    obtain ⟨b2, hb2⟩ := Option.isSome_iff_exists.mp
      (checkPresent_isSome w present 0 (by omega))
    rw [hb2, Option.some_bind]
    rw [hb2] at hcp
    have hr1 : ruleFixedOK w fixed := by
      intro k c hget
      have := (hcf.mp rfl) k.val k.isLt c (by simpa using hget)
      simpa using this
    cases b2 with
    | false =>
      rw [if_pos (by simp)]
      constructor
      · intro hfalse
        exact absurd hfalse (by simp)
      · intro ⟨_, hr2, hr3, _⟩
        have : (some false : Option Bool) = some true := by
          rw [hcp]
          intro k hk
          refine ⟨fun c hc => hr3 ⟨k, hk⟩ c hc, fun c hc => ?_⟩
          exact hr2 ⟨k, hk⟩ c (by simpa using hc)
        exact absurd this (by simp)
    | true =>
      rw [if_neg (by simp)]
      have hp := hcp.mp rfl
      have hr2 : rulePresentPos w present := by
        intro k c hget
        exact (hp k.val k.isLt).2 c (by simpa using hget)
      have hr3 : rulePresentMem w present := by
        intro k c hc
        exact (hp k.val k.isLt).1 c hc
      constructor
      · intro hsome
        have habs : ¬∃ l ∈ absent, l ∈ w := by
          by_contra hex
          simp only [Option.some.injEq] at hsome
          rw [show decide (∃ l ∈ absent, l ∈ w) = true by simpa using hex] at hsome
          simp at hsome
        exact ⟨hr1, hr2, hr3, fun c hc hcw => habs ⟨c, hc, hcw⟩⟩
      · intro ⟨_, _, _, hr4⟩
        have : decide (∃ l ∈ absent, l ∈ w) = false := by
          simp only [decide_eq_false_iff_not]
          intro ⟨l, hl, hlw⟩
          exact hr4 l hl hlw
        rw [this]
        rfl

lemma filterCandidates_eq_some (fixed : List (Option Char))
    (present : List (Finset Char)) (absent : Finset Char) :
    ∀ (ws : List Word), (∀ u ∈ ws, (isCandidate u fixed present absent).isSome) →
      ∃ l, filterCandidates fixed present absent ws = some l
  | [], _ => ⟨[], rfl⟩
  | w :: rest, h => by
    obtain ⟨b, hb⟩ := Option.isSome_iff_exists.mp (h w (by simp))
    obtain ⟨l, hl⟩ := filterCandidates_eq_some fixed present absent rest
      (fun u hu => h u (by simp [hu]))
    rw [filterCandidates, hb, Option.some_bind, hl, Option.some_bind]
    cases b with
    | false => exact ⟨l, by simp⟩
    | true => exact ⟨w :: l, by simp⟩

lemma filterCandidates_mem (fixed : List (Option Char))
    (present : List (Finset Char)) (absent : Finset Char) :
    ∀ (ws l : List Word),
      filterCandidates fixed present absent ws = some l →
      ∀ w : Word, (w ∈ l ↔ w ∈ ws ∧ isCandidate w fixed present absent = some true)
  | [], l, hl, w => by
    rw [filterCandidates] at hl
    injection hl with hl2
    rw [← hl2]
    simp
  | u :: rest, l, hl, w => by
    rw [filterCandidates] at hl
    cases hb : isCandidate u fixed present absent with
    | none => rw [hb] at hl; exact absurd hl (by simp)
    | some b =>
      rw [hb, Option.some_bind] at hl
      cases hrest : filterCandidates fixed present absent rest with
      | none => rw [hrest] at hl; exact absurd hl (by simp)
      | some others =>
        rw [hrest, Option.some_bind] at hl
        have ih := filterCandidates_mem fixed present absent rest others hrest w
        cases b with
        | true =>
          rw [if_pos rfl] at hl
          injection hl with hl2
          rw [← hl2]
          constructor
          · intro hmem
            rcases List.mem_cons.mp hmem with heq | hmem2
            · exact ⟨by simp [heq], by rw [heq]; exact hb⟩
            · obtain ⟨h1, h2⟩ := ih.mp hmem2
              exact ⟨by simp [h1], h2⟩
          · intro ⟨hmem, htrue⟩
            rcases List.mem_cons.mp hmem with heq | hmem2
            · rw [heq]
              exact List.mem_cons_self _ _
            · exact List.mem_cons_of_mem _ (ih.mpr ⟨hmem2, htrue⟩)
        | false =>
          rw [if_neg (by simp)] at hl
          injection hl with hl2
          rw [← hl2]
          rw [ih]
          constructor
          · intro ⟨h1, h2⟩
            exact ⟨by simp [h1], h2⟩
          · intro ⟨hmem, htrue⟩
            rcases List.mem_cons.mp hmem with heq | hmem2
            · rw [heq] at htrue
              rw [htrue] at hb
              exact absurd hb (by simp)
            · exact ⟨hmem2, htrue⟩

lemma filterCandidates_self (fixed : List (Option Char))
    (present : List (Finset Char)) (absent : Finset Char) :
    ∀ (l : List Word), (∀ u ∈ l, isCandidate u fixed present absent = some true) →
      filterCandidates fixed present absent l = some l
  | [], _ => rfl
  | u :: rest, h => by
    rw [filterCandidates, h u (by simp), Option.some_bind,
      filterCandidates_self fixed present absent rest (fun v hv => h v (by simp [hv])),
      Option.some_bind, if_pos rfl]

lemma decorate_eq_some (freqs : FreqTable) :
    ∀ (ws : List Word), (∀ u ∈ ws, (scoreLetterFreqs u freqs).isSome) →
      ∃ ps, decorate freqs ws = some ps
  | [], _ => ⟨[], rfl⟩
  | w :: rest, h => by
    obtain ⟨q, hq⟩ := Option.isSome_iff_exists.mp (h w (by simp))
    obtain ⟨ps, hps⟩ := decorate_eq_some freqs rest (fun u hu => h u (by simp [hu]))
    exact ⟨(w, q) :: ps, by rw [decorate, hq, Option.some_bind, hps, Option.some_bind]⟩

lemma decorate_spec (freqs : FreqTable) :
    ∀ (ws : List Word) (ps : List (Word × ℚ)), decorate freqs ws = some ps →
      ps.map Prod.fst = ws ∧ ∀ p ∈ ps, scoreLetterFreqs p.1 freqs = some p.2
  | [], ps, h => by
    rw [decorate] at h
    injection h with h2
    rw [← h2]
    simp
  | w :: rest, ps, h => by
    rw [decorate] at h
    cases hq : scoreLetterFreqs w freqs with
    | none => rw [hq] at h; exact absurd h (by simp)
    | some q =>
      rw [hq, Option.some_bind] at h
      cases hrest : decorate freqs rest with
      | none => rw [hrest] at h; exact absurd h (by simp)
      | some ps2 =>
        rw [hrest, Option.some_bind] at h
        injection h with h2
        obtain ⟨ih1, ih2⟩ := decorate_spec freqs rest ps2 hrest
        rw [← h2]
        refine ⟨by simp [ih1], fun p hp => ?_⟩
        rcases List.mem_cons.mp hp with heq | hmem
        · rw [heq]
          exact hq
        · exact ih2 p hmem

lemma decorate_of_pairs (freqs : FreqTable) :
    ∀ (ps : List (Word × ℚ)), (∀ p ∈ ps, scoreLetterFreqs p.1 freqs = some p.2) →
      decorate freqs (ps.map Prod.fst) = some ps
  | [], _ => rfl
  | p :: rest, h => by
    rw [List.map_cons, decorate, h p (by simp), Option.some_bind,
      decorate_of_pairs freqs rest (fun q hq => h q (by simp [hq])), Option.some_bind]

lemma getCandidates_eq_some {ws : List Word} {freqs : FreqTable}
    {fixed : List (Option Char)} {present : List (Finset Char)}
    (absent : Finset Char) (hwf : SessionWF ws freqs fixed present) :
    ∃ cs, getCandidates ws freqs fixed present absent = some cs := by
  obtain ⟨hlen, hws, hcov⟩ := hwf
  obtain ⟨l, hl⟩ := filterCandidates_eq_some fixed present absent ws
    (fun u hu => isCandidate_isSome u fixed present absent
      (by rw [hws u hu]) (by rw [hws u hu, hlen]))
  have hsub : ∀ u ∈ l, u ∈ ws := fun u hu =>
    ((filterCandidates_mem fixed present absent ws l hl u).mp hu).1
  obtain ⟨ps, hps⟩ := decorate_eq_some freqs l (fun u hu => by
    rw [scoreLetterFreqs_eq u freqs (hcov u (hsub u hu))]
    rfl)
  exact ⟨(ps.insertionSort sndGE).map Prod.fst,
    by rw [getCandidates, hl, Option.some_bind, hps, Option.some_bind]⟩

lemma getCandidates_mem {ws : List Word} {freqs : FreqTable}
    {fixed : List (Option Char)} {present : List (Finset Char)}
    {absent : Finset Char} {cs : List Word}
    (hgc : getCandidates ws freqs fixed present absent = some cs) (w : Word) :
    w ∈ cs ↔ w ∈ ws ∧ isCandidate w fixed present absent = some true := by
  rw [getCandidates] at hgc
  cases hl : filterCandidates fixed present absent ws with
  | none => rw [hl] at hgc; exact absurd hgc (by simp)
  | some l =>
    rw [hl, Option.some_bind] at hgc
    cases hps : decorate freqs l with
    | none => rw [hps] at hgc; exact absurd hgc (by simp)
    | some ps =>
      rw [hps, Option.some_bind] at hgc
      injection hgc with hgc2
      rw [← hgc2]
      obtain ⟨hfst, _⟩ := decorate_spec freqs l ps hps
      rw [← filterCandidates_mem fixed present absent ws l hl w]
      constructor
      · intro hmem
        obtain ⟨p, hp, hpw⟩ := List.mem_map.mp hmem
        rw [← hpw, ← hfst]
        exact List.mem_map_of_mem Prod.fst ((List.mem_insertionSort sndGE).mp hp)
      · intro hmem
        rw [← hfst] at hmem
        obtain ⟨p, hp, hpw⟩ := List.mem_map.mp hmem
        rw [← hpw]
        exact List.mem_map_of_mem Prod.fst ((List.mem_insertionSort sndGE).mpr hp)

lemma get?_replicate_of_lt {α : Type} (n k : Nat) (x : α) (h : k < n) :
    (List.replicate n x).get? k = some x := by
  rw [List.get?_eq_getElem?, List.getElem?_eq_getElem (by simpa using h),
    List.getElem_replicate]

lemma scoreLoop_isSome_iff (freqs : FreqTable) :
    ∀ (rest : List Char) (place : Nat) (seen : Finset Char) (repeats : Nat)
      (score : Int),
      ((scoreLoop freqs rest place seen repeats score).isSome ↔
        ∀ k (hk : k < rest.length), ∃ counts,
          List.lookup (rest.get ⟨k, hk⟩) freqs = some counts ∧
            place + k < counts.length)
  | [], place, seen, repeats, score => by
    simp only [scoreLoop]
    constructor
    · intro _ k hk
      simp at hk
    · intro _
      rfl
  | letter :: rest, place, seen, repeats, score => by
    rw [scoreLoop]
    cases hlook : List.lookup letter freqs with
    | none =>
      rw [Option.none_bind]
      constructor
      · intro h
        exact absurd h (by simp)
      · intro hall
        obtain ⟨counts, hc, _⟩ := hall 0 (by simp)
        have hcz : (letter :: rest).get ⟨0, by simp⟩ = letter := rfl
        rw [hcz, hlook] at hc
        exact absurd hc (by simp)
    | some counts =>
      rw [Option.some_bind]
      cases hget : counts.get? place with
      | none =>
        rw [Option.none_bind]
        constructor
        · intro h
          exact absurd h (by simp)
        · intro hall
          obtain ⟨counts2, hc, hlt⟩ := hall 0 (by simp)
          have hcz : (letter :: rest).get ⟨0, by simp⟩ = letter := rfl
          rw [hcz, hlook] at hc
          injection hc with hc2
          rw [← hc2] at hlt
          rw [List.get?_eq_none] at hget
          omega
      | some k0 =>
        rw [Option.some_bind]
        rw [scoreLoop_isSome_iff freqs rest (place+1) (insert letter seen) _ _]
        constructor
        · intro hall k hk
          match k, hk with
          | 0, hk =>
            refine ⟨counts, by rw [show (letter :: rest).get ⟨0, hk⟩ = letter from rfl, hlook], ?_⟩
            obtain ⟨hplt, _⟩ := List.get?_eq_some.mp hget
            omega
          | k+1, hk =>
            obtain ⟨cs, hc1, hc2⟩ := hall k (by simpa using hk)
            exact ⟨cs, by rw [show (letter :: rest).get ⟨k+1, hk⟩ =
              rest.get ⟨k, by simpa using hk⟩ from rfl]; exact hc1, by omega⟩
        · intro hall k hk
          obtain ⟨cs, hc1, hc2⟩ := hall (k+1) (by simpa using hk)
          rw [show (letter :: rest).get ⟨k+1, by simpa using hk⟩ =
            rest.get ⟨k, hk⟩ from rfl] at hc1
          exact ⟨cs, hc1, by omega⟩

/-! Claim theorems. -/

/-- C5: for every word and frequency table covering all its letters up to
the word length, the frequency score equals the positional-count sum
divided by 10 to the number of repeat occurrences. -/
theorem c5_freq_score_formula (w : Word) (freqs : FreqTable)
    (h : freqCovers freqs w) :
    scoreLetterFreqs w freqs =
      some ((freqSum w freqs : ℚ) / 10 ^ countRepeats w) :=
  scoreLetterFreqs_eq w freqs h

/-- C9, counterexample: with an all-zero frequency table, the score of a
word with a repeated letter equals its positional sum (both are 0), so it
is not strictly lower: the claim fails as stated for this frequency
table. -/
theorem c9_counterexample :
    1 ≤ countRepeats ['a', 'a'] ∧
    scoreLetterFreqs ['a', 'a'] [('a', [0, 0, 0])] = some 0 ∧
    freqSum ['a', 'a'] [('a', [0, 0, 0])] = 0 ∧
    ¬ (0 : ℚ) < ((0 : Int) : ℚ) := by
  refine ⟨by decide,
    by norm_num [scoreLetterFreqs, scoreLoop, List.lookup],
    by decide, by norm_num⟩

/-- C9, amended: when the positional-count sum is positive, a word with at
least one repeat occurrence scores strictly lower than the plain
positional-count sum. -/
theorem c9_repeat_penalty (w : Word) (freqs : FreqTable)
    (hcov : freqCovers freqs w) (hrep : 1 ≤ countRepeats w)
    (hpos : 0 < freqSum w freqs) :
    ∃ q, scoreLetterFreqs w freqs = some q ∧ q < (freqSum w freqs : ℚ) := by
  refine ⟨_, scoreLetterFreqs_eq w freqs hcov, ?_⟩
  have hS : (0:ℚ) < (freqSum w freqs : ℚ) := by exact_mod_cast hpos
  have h10 : (1:ℚ) < 10 ^ countRepeats w :=
    lt_of_lt_of_le (by norm_num)
      (le_self_pow (by norm_num) (by omega))
  rw [div_lt_iff (by positivity)]
  calc (freqSum w freqs : ℚ) = (freqSum w freqs : ℚ) * 1 := by ring
  _ < (freqSum w freqs : ℚ) * 10 ^ countRepeats w :=
      mul_lt_mul_of_pos_left h10 hS

/-- C6: the likelihood scorer returns, per candidate, its raw statistic
divided by the candidates' total; the scores sum to 1 when some candidate
has a non-zero statistic, and are all 0 when the total is 0. -/
theorem c6_likelihood_scores (candidates : List Word) (stats : StatsTable)
    (hne : candidates ≠ []) (hnn : ∀ p ∈ stats, 0 ≤ p.2) :
    scoreGuesses candidates stats =
      candidates.map
        (fun w => statOf stats w / (candidates.map (statOf stats)).sum) ∧
    ((∃ w ∈ candidates, statOf stats w ≠ 0) →
      (scoreGuesses candidates stats).sum = 1) ∧
    ((candidates.map (statOf stats)).sum = 0 →
      ∀ sc ∈ scoreGuesses candidates stats, sc = 0) := by
  by_cases h0 : (candidates.map (statOf stats)).sum = 0
  · have hz : ∀ w ∈ candidates, statOf stats w = 0 := by
      intro w hw
      have hle := List.single_le_sum
        (l := candidates.map (statOf stats))
        (fun x hx => by
          obtain ⟨u, _, hux⟩ := List.mem_map.mp hx
          rw [← hux]
          exact statOf_nonneg stats hnn u)
        (statOf stats w) (List.mem_map_of_mem _ hw)
      rw [h0] at hle
      exact le_antisymm hle (statOf_nonneg stats hnn w)
    have hmap : candidates.map
        (fun w => statOf stats w / (candidates.map (statOf stats)).sum) =
        candidates.map (Function.const Word (0:ℚ)) :=
      List.map_congr_left (fun w hw => by rw [hz w hw, zero_div]; rfl)
    refine ⟨?_, ?_, ?_⟩
    · rw [scoreGuesses, if_pos h0, hmap, List.map_const]
    · intro ⟨w, hw, hwne⟩
      exact absurd (hz w hw) hwne
    · intro _ sc hsc
      rw [scoreGuesses, if_pos h0] at hsc
      exact List.eq_of_mem_replicate hsc
  · refine ⟨?_, ?_, fun hc => absurd hc h0⟩
    · rw [scoreGuesses, if_neg h0, List.map_map]
      rfl
    · intro _
      rw [scoreGuesses, if_neg h0, sum_map_div, div_self h0]

/-- C7: merging present arrays (pointwise set union) and absent sets is
commutative; merging fixed arrays of equal length fails exactly when the
two arrays hold different letters at a common position, and otherwise each
merged slot takes the set letter from either side. -/
theorem c7_merge_constraints (f1 f2 : List (Option Char))
    (p1 p2 : List (Finset Char)) (a1 a2 : Finset Char)
    (hf : f1.length = f2.length) (hp : p1.length = p2.length) :
    (addPresent p1 p2 = .ok (List.zipWith (fun old new => new ∪ old) p1 p2) ∧
      addPresent p1 p2 = addPresent p2 p1) ∧
    mergeAbsent a1 a2 = mergeAbsent a2 a1 ∧
    ((∃ e, addFixed f1 f2 = .error e) ↔
      ∃ i c1 c2, f1.get? i = some (some c1) ∧ f2.get? i = some (some c2) ∧
        c1 ≠ c2) ∧
    (∀ res, addFixed f1 f2 = .ok res →
      res = List.zipWith (fun old new => Option.or new old) f1 f2) := by
  have hpres : addPresent p1 p2 =
      .ok (List.zipWith (fun old new => new ∪ old) p1 p2) := by
    rw [addPresent, if_neg (by omega)]
  have hnc_iff : (∃ res, addFixedLoop f1 0 f1 f2 = .ok res) ↔
      NoConflictFrom f1 0 f2 := addFixedLoop_ok_iff f1 f2 0 f1
  refine ⟨⟨hpres, ?_⟩, Finset.union_comm a1 a2, ?_, ?_⟩
  · rw [hpres, addPresent, if_neg (by omega)]
    rw [List.zipWith_comm_of_comm _ (fun x y => Finset.union_comm y x)]
  · rw [addFixed, if_neg (by omega)]
    constructor
    · intro ⟨e, he⟩
      by_contra hno
      push_neg at hno
      have hnc : NoConflictFrom f1 0 f2 := by
        intro k hk c c' hget hfix
        by_contra hcc
        rw [Nat.zero_add] at hfix
        exact hcc (hno k c' c hfix (List.get?_eq_some.mpr ⟨hk, hget⟩)).symm
      obtain ⟨res, hres⟩ := hnc_iff.mpr hnc
      rw [hres] at he
      exact absurd he (by simp)
    · intro ⟨i, c1, c2, h1, h2, hcc⟩
      cases hloop : addFixedLoop f1 0 f1 f2 with
      | error e => exact ⟨e, rfl⟩
      | ok res =>
        have hnc := hnc_iff.mp ⟨res, hloop⟩
        obtain ⟨hk, hget⟩ := List.get?_eq_some.mp h2
        have := hnc i hk c2 c1 hget (by simpa using h1)
        exact absurd this.symm hcc
  · intro res hres
    rw [addFixed, if_neg (by omega)] at hres
    have hnc := hnc_iff.mp ⟨res, hres⟩
    have := addFixedLoop_ok_eq f1 f2 0 f1 rfl (by omega) rfl hnc
    rw [this] at hres
    injection hres with hres2
    rw [← hres2]
    simp

/-- C10, counterexample: a word strictly shorter than the constraint
length on which the filter still returns a boolean (the fixed-letter check
fails before any out-of-range read), refuting the claim that shorter words
always make the operations fail. -/
theorem c10_counterexample :
    isCandidate ['b'] [some 'a', some 'c'] [∅, ∅] (∅ : Finset Char) =
      some false ∧
    List.length (['b'] : Word) <
      List.length [some 'a', some 'c'] := by
  refine ⟨by decide, by decide⟩

/-- C10, amended: the filter is total whenever every word is at least the
constraint length; the scorer is defined exactly when every letter of the
word has a table entry whose count list covers that letter's 1-based
position, and in particular is total under the claimed length-plus-one
coverage precondition. -/
theorem c10_totality (w : Word) (fixed : List (Option Char))
    (present : List (Finset Char)) (absent : Finset Char) (freqs : FreqTable)
    (h1 : fixed.length ≤ w.length) (h2 : present.length ≤ w.length) :
    (isCandidate w fixed present absent).isSome ∧
    ((scoreLetterFreqs w freqs).isSome ↔
      ∀ k (hk : k < w.length), ∃ counts,
        List.lookup (w.get ⟨k, hk⟩) freqs = some counts ∧
          k + 1 < counts.length) ∧
    (freqCovers freqs w → (scoreLetterFreqs w freqs).isSome) := by
  have hiff : (scoreLetterFreqs w freqs).isSome ↔
      ∀ k (hk : k < w.length), ∃ counts,
        List.lookup (w.get ⟨k, hk⟩) freqs = some counts ∧
          k + 1 < counts.length := by
    rw [scoreLetterFreqs, Option.isSome_map']
    rw [scoreLoop_isSome_iff freqs w 1]
    constructor
    · intro h k hk
      obtain ⟨counts, hc1, hc2⟩ := h k hk
      exact ⟨counts, hc1, by omega⟩
    · intro h k hk
      obtain ⟨counts, hc1, hc2⟩ := h k hk
      exact ⟨counts, hc1, by omega⟩
  refine ⟨isCandidate_isSome w fixed present absent h1 h2, hiff, ?_⟩
  intro hcov
  rw [hiff]
  intro k hk
  obtain ⟨hs, hlen⟩ := hcov (w.get ⟨k, hk⟩) (List.get_mem w k hk)
  obtain ⟨counts, hc⟩ := Option.isSome_iff_exists.mp hs
  refine ⟨counts, hc, ?_⟩
  rw [hc] at hlen
  simp at hlen
  omega

/-- C3, counterexample: answer "boost", guess "gloss".  The second 's' of
the guess (position 5) has its other occurrence correctly placed (position
4), yet the feedback generator does not put it into the absent delta (the
claim says it is marked gray); it puts it into the present delta at
position 5 instead. -/
theorem c3_counterexample :
    (simulateRound ['b','o','o','s','t'] ['g','l','o','s','s']).map
      (fun r => (decide ('s' ∈ r.2.2), decide ('s' ∈ r.2.1.getD 4 ∅))) =
    some (false, true) := by decide

/-- C3, amended: per position, equal letters go to the fixed delta, unequal
letters occurring anywhere in the answer go to the present delta at that
position, and letters not in the answer go to the absent delta; in
particular a repeated guess letter whose other occurrence is correctly
placed is marked present (yellow), never absent (gray). -/
theorem c3_feedback_rules (answer guess : Word)
    (hlen : guess.length = answer.length) :
    ∃ f p a, simulateRound answer guess = some (f, p, a) ∧
      (∀ k (hk : k < guess.length),
        (answer.get? k = some (guess.get ⟨k, hk⟩) →
          f.get? k = some (some (guess.get ⟨k, hk⟩))) ∧
        (answer.get? k ≠ some (guess.get ⟨k, hk⟩) → guess.get ⟨k, hk⟩ ∈ answer →
          p.get? k = some {guess.get ⟨k, hk⟩} ∧ guess.get ⟨k, hk⟩ ∉ a) ∧
        (guess.get ⟨k, hk⟩ ∉ answer → guess.get ⟨k, hk⟩ ∈ a)) ∧
      (∀ c ∈ answer, c ∉ a) ∧
      (∀ k (hk : k < guess.length), ∀ j (hj : j < guess.length),
        guess.get ⟨k, hk⟩ = guess.get ⟨j, hj⟩ →
        answer.get? j = some (guess.get ⟨j, hj⟩) →
        answer.get? k ≠ some (guess.get ⟨k, hk⟩) →
        p.get? k = some {guess.get ⟨k, hk⟩} ∧ guess.get ⟨k, hk⟩ ∉ a) := by
  obtain ⟨f, p, a, hrun, hfl, hpl, _, hrest, habs⟩ :=
    simulateRoundLoop_spec answer guess 0 (List.replicate answer.length none)
      (List.replicate answer.length ∅) ∅ (by omega) (by simp) (by simp)
  have hamem : ∀ c : Char, c ∈ a ↔ c ∈ guess ∧ c ∉ answer := by
    intro c
    rw [habs]
    simp only [Finset.empty_union, List.mem_toFinset, List.mem_filter,
      Bool.not_eq_eq_eq_not, Bool.not_true, List.elem_eq_mem,
      decide_eq_false_iff_not]
  have hyellowCase : ∀ k (hk : k < guess.length),
      answer.get? k ≠ some (guess.get ⟨k, hk⟩) → guess.get ⟨k, hk⟩ ∈ answer →
      p.get? k = some {guess.get ⟨k, hk⟩} ∧ guess.get ⟨k, hk⟩ ∉ a := by
    intro k hk hne hmem
    obtain ⟨_, h2⟩ := hrest k hk
    rw [Nat.zero_add] at h2
    constructor
    · rw [h2, if_pos ⟨hne, hmem⟩,
        List.getD_eq_getElem?_getD,
        List.getElem?_eq_getElem (by simpa using (by omega : k < answer.length)),
        List.getElem_replicate]
      rfl
    · rw [hamem]
      intro ⟨_, hno⟩
      exact hno hmem
  refine ⟨f, p, a, hrun, ?_, ?_, ?_⟩
  · intro k hk
    obtain ⟨h1, h2⟩ := hrest k hk
    rw [Nat.zero_add] at h1 h2
    refine ⟨?_, hyellowCase k hk, ?_⟩
    · intro hgr
      rw [h1, if_pos hgr]
    · intro hno
      rw [hamem]
      exact ⟨List.get_mem guess k hk, hno⟩
  · intro c hc
    rw [hamem]
    intro ⟨_, hno⟩
    exact hno hc
  · intro k hk j hj heq hgj hnek
    refine hyellowCase k hk hnek ?_
    rw [heq]
    exact List.get?_mem hgj

/-- C1: a word of the session length from the word list appears in the
candidate filter's output exactly when it satisfies the four filter rules
(fixed positions, per-position present exclusion, present membership,
absent exclusion). -/
theorem c1_filter_partition (ws : List Word) (freqs : FreqTable)
    (fixed : List (Option Char)) (present : List (Finset Char))
    (absent : Finset Char) (w : Word)
    (hwf : SessionWF ws freqs fixed present) (hw : w ∈ ws) :
    ∃ cs, getCandidates ws freqs fixed present absent = some cs ∧
      (w ∈ cs ↔ ruleFixedOK w fixed ∧ rulePresentPos w present ∧
        rulePresentMem w present ∧ ruleAbsent w absent) := by
  obtain ⟨cs, hcs⟩ := getCandidates_eq_some absent hwf
  refine ⟨cs, hcs, ?_⟩
  rw [getCandidates_mem hcs w]
  obtain ⟨hlen, hws, _⟩ := hwf
  rw [isCandidate_true_iff w fixed present absent
    (by rw [hws w hw]) (by rw [hws w hw, hlen])]
  constructor
  · intro ⟨_, hx⟩
    exact hx
  · intro hr
    exact ⟨hw, hr⟩

/-- C8: filtering and ranking the filter's own output again under the same
constraints and frequency table returns the same list in the same order. -/
theorem c8_filter_idempotent (ws : List Word) (freqs : FreqTable)
    (fixed : List (Option Char)) (present : List (Finset Char))
    (absent : Finset Char) (cs : List Word)
    (hgc : getCandidates ws freqs fixed present absent = some cs) :
    getCandidates cs freqs fixed present absent = some cs := by
  have hall : ∀ u ∈ cs, isCandidate u fixed present absent = some true :=
    fun u hu => ((getCandidates_mem hgc u).mp hu).2
  rw [getCandidates] at hgc
  cases hl : filterCandidates fixed present absent ws with
  | none => rw [hl] at hgc; exact absurd hgc (by simp)
  | some l =>
    rw [hl, Option.some_bind] at hgc
    cases hps : decorate freqs l with
    | none => rw [hps] at hgc; exact absurd hgc (by simp)
    | some ps =>
      rw [hps, Option.some_bind] at hgc
      injection hgc with hcs2
      have hpairs : ∀ q ∈ ps.insertionSort sndGE,
          scoreLetterFreqs q.1 freqs = some q.2 :=
        fun q hq => (decorate_spec freqs l ps hps).2 q
          ((List.mem_insertionSort sndGE).mp hq)
      have hdec : decorate freqs cs = some (ps.insertionSort sndGE) := by
        rw [← hcs2]
        exact decorate_of_pairs freqs _ hpairs
      rw [getCandidates, filterCandidates_self fixed present absent cs hall,
        Option.some_bind, hdec, Option.some_bind,
        List.Sorted.insertionSort_eq (List.sorted_insertionSort sndGE ps), hcs2]

/-! Lemmas about the guess selector. -/

lemma fixedLetters_replicate (n : Nat) :
    fixedLetters (List.replicate n none) = ∅ := by
  induction n with
  | zero => rfl
  | succ m ih => simp [List.replicate_succ, fixedLetters, ih]

lemma presentLetters_replicate (n : Nat) :
    presentLetters (List.replicate n (∅ : Finset Char)) = ∅ := by
  induction n with
  | zero => rfl
  | succ m ih => simp [List.replicate_succ, presentLetters, ih]

lemma getAnswerGuesses_length (c : List Word) (s : StatsTable) :
    (getAnswerGuesses c s).length = c.length := by
  rw [getAnswerGuesses, List.length_insertionSort, List.length_zip,
    scoreGuesses_length, min_self]

lemma getNewCandidates_eq {ws : List Word} {freqs : FreqTable}
    {fixed : List (Option Char)} {present : List (Finset Char)}
    {absent : Finset Char} {cs ncs : List Word}
    (hgc : getCandidates ws freqs fixed present absent = some cs)
    (hex : getCandidates ws freqs (List.replicate fixed.length none)
      (List.replicate fixed.length ∅)
      (explorationAbsent fixed present absent) = some ncs) :
    getNewCandidates cs ws freqs fixed present absent = some ncs := by
  rw [explorationAbsent] at hex
  rw [getNewCandidates]
  by_cases hsp : fixed = List.replicate fixed.length none ∧
      present = List.replicate fixed.length ∅
  · rw [if_pos hsp]
    obtain ⟨h1, h2⟩ := hsp
    rw [show absent ∪ fixedLetters fixed ∪ presentLetters present = absent by
        conv_lhs => rw [h1, h2]
        rw [fixedLetters_replicate, presentLetters_replicate]
        simp] at hex
    rw [← h1, ← h2] at hex
    rw [hgc] at hex
    injection hex with hex2
    rw [hex2]
  · rw [if_neg hsp]
    exact hex

lemma chooseWords_eq {ws : List Word} {freqs : FreqTable} {stats : StatsTable}
    {fixed : List (Option Char)} {present : List (Finset Char)}
    {absent : Finset Char} {thres : ℚ} {limit : Option Nat}
    {cs ncs : List Word}
    (hgc : getCandidates ws freqs fixed present absent = some cs)
    (hnc : getNewCandidates cs ws freqs fixed present absent = some ncs) :
    chooseWords ws freqs stats fixed present absent thres limit =
      if cs.isEmpty then some (Except.error WordleError.noCandidates)
      else some (Except.ok
        { choice := Option.or
            ((getAnswerGuesses cs stats).head?.bind fun ag =>
              if ag.2 ≥ thres then some ag.1 else none)
            (Option.or ncs.head? cs.head?)
          answers := takeOpt limit (getAnswerGuesses cs stats)
          excluders := takeOpt limit ncs }) := by
  by_cases hemp : cs.isEmpty
  · simp only [chooseWords, hgc, Option.some_bind, hemp, if_pos]
  · simp only [chooseWords, hgc, Option.some_bind, hemp, if_neg,
      Bool.false_eq_true, not_false_eq_true, hnc]

/-- C4: under session well-formedness, the guess-selection entry point
returns its typed error exactly when the candidate set is empty, and
otherwise always produces a chosen word. -/
theorem c4_no_candidates_error (ws : List Word) (freqs : FreqTable)
    (stats : StatsTable) (fixed : List (Option Char))
    (present : List (Finset Char)) (absent : Finset Char) (thres : ℚ)
    (limit : Option Nat) (cs : List Word)
    (hwf : SessionWF ws freqs fixed present)
    (hgc : getCandidates ws freqs fixed present absent = some cs) :
    ∃ r, chooseWords ws freqs stats fixed present absent thres limit = some r ∧
      ((∃ e, r = .error e) ↔ cs = []) ∧
      (∀ g, r = .ok g → ∃ w, g.choice = some w) := by
  obtain ⟨hlen, hws, hcov⟩ := hwf
  obtain ⟨ncs, hex⟩ := getCandidates_eq_some
    (explorationAbsent fixed present absent)
    (show SessionWF ws freqs (List.replicate fixed.length none)
        (List.replicate fixed.length ∅) from
      ⟨by simp, fun u hu => by simp [hws u hu], hcov⟩)
  have hnc := getNewCandidates_eq hgc hex
  rw [chooseWords_eq hgc hnc]
  by_cases hemp : cs.isEmpty
  · rw [if_pos hemp]
    refine ⟨.error .noCandidates, rfl, ?_, by simp⟩
    rw [List.isEmpty_iff] at hemp
    exact ⟨fun _ => hemp, fun _ => ⟨.noCandidates, rfl⟩⟩
  · rw [if_neg hemp]
    have hcsne : cs ≠ [] := by
      intro hc
      rw [hc] at hemp
      exact hemp rfl
    refine ⟨_, rfl, ?_, ?_⟩
    · constructor
      · intro ⟨e, he⟩
        exact absurd he (by simp)
      · intro hc
        exact absurd hc hcsne
    · intro g hg
      injection hg with hg2
      rw [← hg2]
      have hsome : (Option.or
          ((getAnswerGuesses cs stats).head?.bind fun ag =>
            if ag.2 ≥ thres then some ag.1 else none)
          (Option.or ncs.head? cs.head?)).isSome := by
        rw [Option.isSome_or, Option.isSome_or, List.head?_eq_head hcsne]
        simp
      obtain ⟨w, hw⟩ := Option.isSome_iff_exists.mp hsome
      exact ⟨w, hw⟩

/-- C2: with a non-empty candidate set, the selector returns the top
answer-guess when its likelihood score reaches the threshold; below the
threshold it returns the top frequency-ranked word filtered by the
exploration constraints (all known letters moved into absent, fixed and
present reset), falling back to the top frequency-ranked original
candidate when the exploration set is empty. -/
theorem c2_guess_policy (ws : List Word) (freqs : FreqTable)
    (stats : StatsTable) (fixed : List (Option Char))
    (present : List (Finset Char)) (absent : Finset Char) (thres : ℚ)
    (cs ncs : List Word)
    (hgc : getCandidates ws freqs fixed present absent = some cs)
    (hne : cs ≠ [])
    (hex : getCandidates ws freqs (List.replicate fixed.length none)
      (List.replicate fixed.length ∅)
      (explorationAbsent fixed present absent) = some ncs) :
    ∃ top, (getAnswerGuesses cs stats).head? = some top ∧
      chooseWord ws freqs stats fixed present absent thres =
        some (Except.ok (if thres ≤ top.2 then some top.1
          else if ncs.isEmpty then cs.head? else ncs.head?)) := by
  have hagne : getAnswerGuesses cs stats ≠ [] := by
    intro hnil
    have := getAnswerGuesses_length cs stats
    rw [hnil] at this
    exact hne (List.eq_nil_of_length_eq_zero this.symm)
  have hnc := getNewCandidates_eq hgc hex
  refine ⟨(getAnswerGuesses cs stats).head hagne,
    List.head?_eq_head hagne, ?_⟩
  rw [chooseWord, chooseWords_eq hgc hnc,
    if_neg (by rw [List.isEmpty_iff]; exact hne)]
  rw [List.head?_eq_head hagne, Option.some_bind]
  by_cases hth : ((getAnswerGuesses cs stats).head hagne).2 ≥ thres
  · rw [if_pos hth, if_pos hth]
    rfl
  · rw [if_neg hth, if_neg hth, Option.none_or]
    cases hncs : ncs with
    | nil =>
      rw [if_pos (show ([] : List Word).isEmpty = true from rfl)]
      rfl
    | cons n rest =>
      rw [if_neg (by simp)]
      rfl

/-! Witnesses: each claim theorem applied at a concrete input. -/

theorem c1_filter_partition_witness :
    SessionWF exWords exFreqs exFixed exPresent ∧ ['a','b'] ∈ exWords ∧
    (∃ cs, getCandidates exWords exFreqs exFixed exPresent ∅ = some cs ∧
      (['a','b'] ∈ cs ↔ ruleFixedOK ['a','b'] exFixed ∧
        rulePresentPos ['a','b'] exPresent ∧
        rulePresentMem ['a','b'] exPresent ∧ ruleAbsent ['a','b'] ∅)) :=
  ⟨by decide, by decide,
    c1_filter_partition exWords exFreqs exFixed exPresent ∅ ['a','b']
      (by decide) (by decide)⟩

theorem c3_feedback_rules_witness :
    List.length (['b','b'] : Word) = List.length (['a','b'] : Word) ∧
    (∃ f p a, simulateRound ['a','b'] ['b','b'] = some (f, p, a) ∧
      (∀ k (hk : k < List.length (['b','b'] : Word)),
        ((['a','b'] : Word).get? k = some ((['b','b'] : Word).get ⟨k, hk⟩) →
          f.get? k = some (some ((['b','b'] : Word).get ⟨k, hk⟩))) ∧
        ((['a','b'] : Word).get? k ≠ some ((['b','b'] : Word).get ⟨k, hk⟩) →
          (['b','b'] : Word).get ⟨k, hk⟩ ∈ (['a','b'] : Word) →
          p.get? k = some {(['b','b'] : Word).get ⟨k, hk⟩} ∧
            (['b','b'] : Word).get ⟨k, hk⟩ ∉ a) ∧
        ((['b','b'] : Word).get ⟨k, hk⟩ ∉ (['a','b'] : Word) →
          (['b','b'] : Word).get ⟨k, hk⟩ ∈ a)) ∧
      (∀ c ∈ (['a','b'] : Word), c ∉ a) ∧
      (∀ k (hk : k < List.length (['b','b'] : Word)),
        ∀ j (hj : j < List.length (['b','b'] : Word)),
        (['b','b'] : Word).get ⟨k, hk⟩ = (['b','b'] : Word).get ⟨j, hj⟩ →
        (['a','b'] : Word).get? j = some ((['b','b'] : Word).get ⟨j, hj⟩) →
        (['a','b'] : Word).get? k ≠ some ((['b','b'] : Word).get ⟨k, hk⟩) →
        p.get? k = some {(['b','b'] : Word).get ⟨k, hk⟩} ∧
          (['b','b'] : Word).get ⟨k, hk⟩ ∉ a)) :=
  ⟨by decide, c3_feedback_rules ['a','b'] ['b','b'] (by decide)⟩

theorem c5_freq_score_formula_witness :
    freqCovers exFreqs ['a','b'] ∧
    scoreLetterFreqs ['a','b'] exFreqs =
      some ((freqSum ['a','b'] exFreqs : ℚ) / 10 ^ countRepeats ['a','b']) :=
  ⟨by decide, c5_freq_score_formula ['a','b'] exFreqs (by decide)⟩

theorem c6_likelihood_scores_witness :
    exWords ≠ [] ∧ (∀ p ∈ exStats, 0 ≤ p.2) ∧
    (scoreGuesses exWords exStats =
      exWords.map
        (fun w => statOf exStats w / (exWords.map (statOf exStats)).sum) ∧
    ((∃ w ∈ exWords, statOf exStats w ≠ 0) →
      (scoreGuesses exWords exStats).sum = 1) ∧
    ((exWords.map (statOf exStats)).sum = 0 →
      ∀ sc ∈ scoreGuesses exWords exStats, sc = 0)) :=
  ⟨by decide, by decide,
    c6_likelihood_scores exWords exStats (by decide) (by decide)⟩

theorem c7_merge_constraints_witness :
    List.length [some 'a', none] = List.length [none, some 'b'] ∧
    List.length [({'a'} : Finset Char), ∅] =
      List.length [({'b'} : Finset Char), {'c'}] ∧
    ((addPresent [{'a'}, ∅] [{'b'}, {'c'}] =
        .ok (List.zipWith (fun old new => new ∪ old) [{'a'}, ∅] [{'b'}, {'c'}]) ∧
      addPresent [{'a'}, ∅] [{'b'}, {'c'}] =
        addPresent [{'b'}, {'c'}] [{'a'}, ∅]) ∧
    mergeAbsent {'a'} {'b'} = mergeAbsent {'b'} {'a'} ∧
    ((∃ e, addFixed [some 'a', none] [none, some 'b'] = .error e) ↔
      ∃ i c1 c2, List.get? [some 'a', none] i = some (some c1) ∧
        List.get? [none, some 'b'] i = some (some c2) ∧ c1 ≠ c2) ∧
    (∀ res, addFixed [some 'a', none] [none, some 'b'] = .ok res →
      res = List.zipWith (fun old new => Option.or new old)
        [some 'a', none] [none, some 'b'])) :=
  ⟨by decide, by decide,
    c7_merge_constraints [some 'a', none] [none, some 'b']
      [{'a'}, ∅] [{'b'}, {'c'}] {'a'} {'b'} (by decide) (by decide)⟩

theorem c9_repeat_penalty_witness :
    freqCovers exFreqs ['a','a'] ∧ 1 ≤ countRepeats ['a','a'] ∧
    0 < freqSum ['a','a'] exFreqs ∧
    (∃ q, scoreLetterFreqs ['a','a'] exFreqs = some q ∧
      q < (freqSum ['a','a'] exFreqs : ℚ)) :=
  ⟨by decide, by decide, by decide,
    c9_repeat_penalty ['a','a'] exFreqs (by decide) (by decide) (by decide)⟩

theorem c10_totality_witness :
    List.length exFixed ≤ List.length (['a','b'] : Word) ∧
    List.length exPresent ≤ List.length (['a','b'] : Word) ∧
    ((isCandidate ['a','b'] exFixed exPresent ∅).isSome ∧
    ((scoreLetterFreqs ['a','b'] exFreqs).isSome ↔
      ∀ k (hk : k < List.length (['a','b'] : Word)), ∃ counts,
        List.lookup ((['a','b'] : Word).get ⟨k, hk⟩) exFreqs = some counts ∧
          k + 1 < counts.length) ∧
    (freqCovers exFreqs ['a','b'] →
      (scoreLetterFreqs ['a','b'] exFreqs).isSome)) :=
  ⟨by decide, by decide,
    c10_totality ['a','b'] exFixed exPresent ∅ exFreqs (by decide) (by decide)⟩

theorem c8_filter_idempotent_witness :
    getCandidates exWords exFreqs exFixed exPresent0 ∅ =
      some [['c','a'], ['a','b'], ['b','d']] ∧
    getCandidates [['c','a'], ['a','b'], ['b','d']] exFreqs exFixed exPresent0 ∅ =
      some [['c','a'], ['a','b'], ['b','d']] := by
  have hsCA : scoreLetterFreqs ['c','a'] exFreqs = some 28 := by
    rw [scoreLetterFreqs,
      show scoreLoop exFreqs ['c','a'] 1 ∅ 0 0 = some (28, 0) by decide]
    norm_num
  have hsAB : scoreLetterFreqs ['a','b'] exFreqs = some 25 := by
    rw [scoreLetterFreqs,
      show scoreLoop exFreqs ['a','b'] 1 ∅ 0 0 = some (25, 0) by decide]
    norm_num
  have hsBD : scoreLetterFreqs ['b','d'] exFreqs = some 9 := by
    rw [scoreLetterFreqs,
      show scoreLoop exFreqs ['b','d'] 1 ∅ 0 0 = some (9, 0) by decide]
    norm_num
  have hdecAll : decorate exFreqs [['c','a'], ['a','b'], ['b','d']] =
      some [(['c','a'], 28), (['a','b'], 25), (['b','d'], 9)] := by
    rw [decorate, hsCA, Option.some_bind, decorate, hsAB, Option.some_bind,
      decorate, hsBD, Option.some_bind,
      show decorate exFreqs [] = some [] from rfl, Option.some_bind]
    rfl
  have hgcAll : getCandidates exWords exFreqs exFixed exPresent0 ∅ =
      some [['c','a'], ['a','b'], ['b','d']] := by
    rw [getCandidates,
      show filterCandidates exFixed exPresent0 ∅ exWords =
        some [['c','a'], ['a','b'], ['b','d']] by decide,
      Option.some_bind, hdecAll, Option.some_bind]
    decide
  exact ⟨hgcAll,
    c8_filter_idempotent exWords exFreqs exFixed exPresent0 ∅
      [['c','a'], ['a','b'], ['b','d']] hgcAll⟩

theorem c4_no_candidates_error_witness :
    SessionWF exWords exFreqs exFixed exPresent ∧
    getCandidates exWords exFreqs exFixed exPresent ∅ = some [['a','b']] ∧
    (∃ r, chooseWords exWords exFreqs exStats exFixed exPresent ∅ 2 none =
        some r ∧
      ((∃ e, r = .error e) ↔ ([['a','b']] : List Word) = []) ∧
      (∀ g, r = .ok g → ∃ w, g.choice = some w)) := by
  have hsAB : scoreLetterFreqs ['a','b'] exFreqs = some 25 := by
    rw [scoreLetterFreqs,
      show scoreLoop exFreqs ['a','b'] 1 ∅ 0 0 = some (25, 0) by decide]
    norm_num
  have hdec : decorate exFreqs [['a','b']] = some [(['a','b'], 25)] := by
    rw [decorate, hsAB, Option.some_bind,
      show decorate exFreqs [] = some [] from rfl, Option.some_bind]
  have hgc : getCandidates exWords exFreqs exFixed exPresent ∅ =
      some [['a','b']] := by
    rw [getCandidates,
      show filterCandidates exFixed exPresent ∅ exWords = some [['a','b']]
        by decide,
      Option.some_bind, hdec, Option.some_bind]
    decide
  exact ⟨by decide, hgc,
    c4_no_candidates_error exWords exFreqs exStats exFixed exPresent ∅ 2 none
      [['a','b']] (by decide) hgc⟩

theorem c2_guess_policy_witness :
    getCandidates exWords exFreqs exFixed exPresent ∅ = some [['a','b']] ∧
    ([['a','b']] : List Word) ≠ [] ∧
    getCandidates exWords exFreqs (List.replicate (List.length exFixed) none)
      (List.replicate (List.length exFixed) ∅)
      (explorationAbsent exFixed exPresent ∅) = some [['c','a']] ∧
    (∃ top, (getAnswerGuesses [['a','b']] exStats).head? = some top ∧
      chooseWord exWords exFreqs exStats exFixed exPresent ∅ 2 =
        some (Except.ok (if (2:ℚ) ≤ top.2 then some top.1
          else if ([['c','a']] : List Word).isEmpty
          then ([['a','b']] : List Word).head?
          else ([['c','a']] : List Word).head?))) := by
  have hsAB : scoreLetterFreqs ['a','b'] exFreqs = some 25 := by
    rw [scoreLetterFreqs,
      show scoreLoop exFreqs ['a','b'] 1 ∅ 0 0 = some (25, 0) by decide]
    norm_num
  have hsCA : scoreLetterFreqs ['c','a'] exFreqs = some 28 := by
    rw [scoreLetterFreqs,
      show scoreLoop exFreqs ['c','a'] 1 ∅ 0 0 = some (28, 0) by decide]
    norm_num
  have hdec : decorate exFreqs [['a','b']] = some [(['a','b'], 25)] := by
    rw [decorate, hsAB, Option.some_bind,
      show decorate exFreqs [] = some [] from rfl, Option.some_bind]
  have hdec2 : decorate exFreqs [['c','a']] = some [(['c','a'], 28)] := by
    rw [decorate, hsCA, Option.some_bind,
      show decorate exFreqs [] = some [] from rfl, Option.some_bind]
  have hgc : getCandidates exWords exFreqs exFixed exPresent ∅ =
      some [['a','b']] := by
    rw [getCandidates,
      show filterCandidates exFixed exPresent ∅ exWords = some [['a','b']]
        by decide,
      Option.some_bind, hdec, Option.some_bind]
    decide
  have hex : getCandidates exWords exFreqs
      (List.replicate (List.length exFixed) none)
      (List.replicate (List.length exFixed) ∅)
      (explorationAbsent exFixed exPresent ∅) = some [['c','a']] := by
    rw [getCandidates,
      show filterCandidates (List.replicate (List.length exFixed) none)
        (List.replicate (List.length exFixed) ∅)
        (explorationAbsent exFixed exPresent ∅) exWords = some [['c','a']]
        by decide,
      Option.some_bind, hdec2, Option.some_bind]
    decide
  exact ⟨hgc, by decide, hex,
    c2_guess_policy exWords exFreqs exStats exFixed exPresent ∅ 2
      [['a','b']] [['c','a']] hgc (by decide) hex⟩

end Wordle
